import Mathlib

/-!
Shallow embedding of the `usage-visualizer` repository (scripts/store.py,
scripts/fetch_usage.py, scripts/notify.py).

The ledger persists rows in a SQLite table; TEXT values compare with the
default BINARY collation (byte-wise memcmp), so date strings are embedded
as lists of byte values (`Bytes`) with the memcmp order.  SQLite REAL cost
values are idealised as rationals, INTEGER token counters as `Int`
(Python ints may be negative; nothing in the code restricts them).
-/

/-- A SQLite TEXT value at the byte level (each entry a byte, `< 256`). -/
abbrev Bytes := List Nat

/-- Byte-wise (memcmp / BINARY collation) strict order used by SQLite for
`date < ?` comparisons: a proper initial segment is smaller. -/
def bytesLt : Bytes → Bytes → Bool
  | _, [] => false
  | [], _ :: _ => true
  | a :: as, b :: bs => if a < b then true else if b < a then false else bytesLt as bs

/-- Byte-wise (memcmp / BINARY collation) order used by SQLite for
`date >= ?` / `date <= ?` comparisons. -/
def bytesLe : Bytes → Bytes → Bool
  | [], _ => true
  | _ :: _, [] => false
  | a :: as, b :: bs => if a < b then true else if b < a then false else bytesLe as bs

/-! ## SHA-256 (hashlib.sha256), executable over `Nat`

`UsageStore._hash_key` stores `hashlib.sha256(api_key.encode()).hexdigest()[:16]`.
The whole pipeline (UTF-8 encoding, padding, compression, hex digest,
truncation) is embedded below. All 32-bit words are `Nat`s reduced mod 2^32. -/

/-- Reduce to a 32-bit word. -/
def w32 (n : Nat) : Nat := n % 4294967296

/-- Rotate a 32-bit word right by `n` bits. -/
def rotr32 (n x : Nat) : Nat := x / 2 ^ n + x % 2 ^ n * 2 ^ (32 - n)

/-- SHA-256 Ch function (bitwise complement of `e` is `2^32 - 1 - e`). -/
def shaCh (e f g : Nat) : Nat := (e &&& f) ^^^ ((4294967295 - e) &&& g)

/-- SHA-256 Maj function. -/
def shaMaj (a b c : Nat) : Nat := (a &&& b) ^^^ (a &&& c) ^^^ (b &&& c)

/-- SHA-256 Σ₀. -/
def bigSig0 (x : Nat) : Nat := rotr32 2 x ^^^ rotr32 13 x ^^^ rotr32 22 x

/-- SHA-256 Σ₁. -/
def bigSig1 (x : Nat) : Nat := rotr32 6 x ^^^ rotr32 11 x ^^^ rotr32 25 x

/-- SHA-256 σ₀. -/
def smallSig0 (x : Nat) : Nat := rotr32 7 x ^^^ rotr32 18 x ^^^ x / 8

/-- SHA-256 σ₁. -/
def smallSig1 (x : Nat) : Nat := rotr32 17 x ^^^ rotr32 19 x ^^^ x / 1024

/-- The 64 SHA-256 round constants (decimal). -/
def shaK : List Nat :=
  [1116352408, 1899447441, 3049323471, 3921009573, 961987163, 1508970993,
   2453635748, 2870763221, 3624381080, 310598401, 607225278, 1426881987,
   1925078388, 2162078206, 2614888103, 3248222580, 3835390401, 4022224774,
   264347078, 604807628, 770255983, 1249150122, 1555081692, 1996064986,
   2554220882, 2821834349, 2952996808, 3210313671, 3336571891, 3584528711,
   113926993, 338241895, 666307205, 773529912, 1294757372, 1396182291,
   1695183700, 1986661051, 2177026350, 2456956037, 2730485921, 2820302411,
   3259730800, 3345764771, 3516065817, 3600352804, 4094571909, 275423344,
   430227734, 506948616, 659060556, 883997877, 958139571, 1322822218,
   1537002063, 1747873779, 1955562222, 2024104815, 2227730452, 2361852424,
   2428436474, 2756734187, 3204031479, 3329325298]

/-- SHA-256 working state / chaining value: eight 32-bit words. -/
structure H8 where
  a : Nat
  b : Nat
  c : Nat
  d : Nat
  e : Nat
  f : Nat
  g : Nat
  h : Nat
deriving Repr, DecidableEq

/-- SHA-256 initial hash value (decimal). -/
def shaH0 : H8 :=
  ⟨1779033703, 3144134277, 1013904242, 2773480762,
   1359893119, 2600822924, 528734635, 1541459225⟩

/-- Group bytes into big-endian 32-bit words. -/
def toWords : List Nat → List Nat
  | b0 :: b1 :: b2 :: b3 :: rest =>
      (b0 * 16777216 + b1 * 65536 + b2 * 256 + b3) :: toWords rest
  | _ => []

/-- One step of the message-schedule extension. -/
def schedStep (acc : List Nat) : List Nat :=
  acc ++ [w32 (smallSig1 (acc.getD (acc.length - 2) 0) + acc.getD (acc.length - 7) 0
               + smallSig0 (acc.getD (acc.length - 15) 0) + acc.getD (acc.length - 16) 0)]

/-- Iterate the schedule extension `n` times. -/
def buildSched : Nat → List Nat → List Nat
  | 0, acc => acc
  | n + 1, acc => buildSched n (schedStep acc)

/-- The 64-word message schedule of one block. -/
def sched (block : List Nat) : List Nat := buildSched 48 (toWords block)

/-- One SHA-256 compression round with round constant `k` and schedule word `w`. -/
def shaRound (s : H8) (kw : Nat × Nat) : H8 :=
  let t1 := w32 (s.h + bigSig1 s.e + shaCh s.e s.f s.g + kw.1 + kw.2)
  let t2 := w32 (bigSig0 s.a + shaMaj s.a s.b s.c)
  ⟨w32 (t1 + t2), s.a, s.b, s.c, w32 (s.d + t1), s.e, s.f, s.g⟩

/-- Compress one 64-byte block into the chaining value. -/
def compressBlock (hv : H8) (block : List Nat) : H8 :=
  let s := (shaK.zip (sched block)).foldl shaRound hv
  ⟨w32 (hv.a + s.a), w32 (hv.b + s.b), w32 (hv.c + s.c), w32 (hv.d + s.d),
   w32 (hv.e + s.e), w32 (hv.f + s.f), w32 (hv.g + s.g), w32 (hv.h + s.h)⟩

/-- SHA-256 padding: append 0x80, zeros to 56 mod 64, then the 64-bit
big-endian bit length. -/
def padMsg (msg : List Nat) : List Nat :=
  let L := msg.length
  let zeros := (120 - (L + 1) % 64) % 64
  let bits := 8 * L
  msg ++ [128] ++ List.replicate zeros 0 ++
    [bits / 2 ^ 56 % 256, bits / 2 ^ 48 % 256, bits / 2 ^ 40 % 256, bits / 2 ^ 32 % 256,
     bits / 2 ^ 24 % 256, bits / 2 ^ 16 % 256, bits / 2 ^ 8 % 256, bits % 256]

/-- Split a byte list into 64-byte blocks. -/
def splitBlocks (l : List Nat) : List (List Nat) :=
  if h : l = [] then [] else l.take 64 :: splitBlocks (l.drop 64)
termination_by l.length
decreasing_by
  simp only [List.length_drop]
  have : l.length ≠ 0 := fun hl => h (List.length_eq_zero.mp hl)
  omega

/-- SHA-256 of a byte string, as the final eight-word chaining value. -/
def sha256 (msg : List Nat) : H8 := (splitBlocks (padMsg msg)).foldl compressBlock shaH0

/-- A hexadecimal digit character (lowercase, as Python's hexdigest). -/
def hexChar (n : Nat) : Char := if n < 10 then Char.ofNat (48 + n) else Char.ofNat (87 + n)

/-- Eight hex characters of one 32-bit word, big-endian. -/
def hex8 (w : Nat) : List Char :=
  [hexChar (w / 2 ^ 28 % 16), hexChar (w / 2 ^ 24 % 16), hexChar (w / 2 ^ 20 % 16),
   hexChar (w / 2 ^ 16 % 16), hexChar (w / 2 ^ 12 % 16), hexChar (w / 2 ^ 8 % 16),
   hexChar (w / 2 ^ 4 % 16), hexChar (w % 16)]

/-- `hexdigest()`: 64 hex characters of the eight chaining words. -/
def hexdigest (hv : H8) : List Char :=
  hex8 hv.a ++ hex8 hv.b ++ hex8 hv.c ++ hex8 hv.d ++ hex8 hv.e ++ hex8 hv.f ++ hex8 hv.g ++ hex8 hv.h

/-- UTF-8 encoding of one character (`str.encode()` is UTF-8). -/
def utf8EncodeChar (c : Char) : List Nat :=
  let n := c.toNat
  if n < 128 then [n]
  else if n < 2048 then [192 + n / 64, 128 + n % 64]
  else if n < 65536 then [224 + n / 4096, 128 + n / 64 % 64, 128 + n % 64]
  else [240 + n / 262144, 128 + n / 4096 % 64, 128 + n / 64 % 64, 128 + n % 64]

/-- UTF-8 encoding of a string. -/
def utf8Encode (s : String) : List Nat := s.data.flatMap utf8EncodeChar

/-- `UsageStore._hash_key`: `hashlib.sha256(api_key.encode()).hexdigest()[:16]`. -/
def hash_key (api_key : String) : String :=
  String.mk ((hexdigest (sha256 (utf8Encode api_key))).take 16)

/-! ## The usage ledger (scripts/store.py)

One SQLite row of `usage_records`.  The `UNIQUE(date, provider, api_key_hash,
model)` constraint plus the `ON CONFLICT ... DO UPDATE` upsert keep at most
one row per identity tuple, so the table is a list of rows with distinct
identity keys, and `add_usage` either updates the matching row in place or
appends a fresh one. -/
structure Row where
  date : Bytes
  provider : String
  api_key_hash : String
  model : String
  input_tokens : Int
  output_tokens : Int
  cache_read_tokens : Int
  cache_creation_tokens : Int
  cost : ℚ
deriving Repr, DecidableEq

/-- The ledger state: the `usage_records` table in rowid order. -/
abbrev State := List Row

/-- The identity tuple of a row, `(date, provider, api_key_hash, model)`. -/
def rowIdent (r : Row) : Bytes × String × String × String :=
  (r.date, r.provider, r.api_key_hash, r.model)

/-- Grouping key of the `get_usage` query, `(date, provider, model)`. -/
def rowKey (r : Row) : Bytes × String × String := (r.date, r.provider, r.model)

/-- The `DO UPDATE SET x = usage_records.x + excluded.x` row: every numeric
field of the excluded row `f` added into the conflicting row `r`, the
identity columns untouched. -/
def addDeltaRow (r f : Row) : Row :=
  { r with
    input_tokens := r.input_tokens + f.input_tokens,
    output_tokens := r.output_tokens + f.output_tokens,
    cache_read_tokens := r.cache_read_tokens + f.cache_read_tokens,
    cache_creation_tokens := r.cache_creation_tokens + f.cache_creation_tokens,
    cost := r.cost + f.cost }

/-- The `ON CONFLICT ... DO UPDATE` upsert: on the conflicting identity add
every numeric field of the excluded row, otherwise insert it at the end. -/
def upsertRow : State → Row → State
  | [], fresh => [fresh]
  | r :: rs, fresh =>
      if rowIdent r = rowIdent fresh then addDeltaRow r fresh :: rs
      else r :: upsertRow rs fresh

/-- `UsageStore.add_usage`: hash the key, then
`INSERT ... ON CONFLICT(date, provider, api_key_hash, model) DO UPDATE SET
 x = usage_records.x + excluded.x` for every numeric field. -/
def add_usage (s : State) (date : Bytes) (provider api_key model : String)
    (input_tokens output_tokens cache_read_tokens cache_creation_tokens : Int)
    (cost : ℚ) : State :=
  upsertRow s ⟨date, provider, hash_key api_key, model, input_tokens, output_tokens,
               cache_read_tokens, cache_creation_tokens, cost⟩

/-- The Python provider argument: `None`, or a string whose truthiness the
code tests with `if provider:` (the empty string is falsy, so it adds no
`AND provider = ?` clause). -/
def providerClause (provider : Option String) (rowProvider : String) : Bool :=
  match provider with
  | none => true
  | some p => if p.isEmpty then true else rowProvider == p

/-- The `WHERE date >= ? AND date <= ?` clause (BINARY-collation TEXT order). -/
def dateClause (start_date end_date : Bytes) (d : Bytes) : Bool :=
  bytesLe start_date d && bytesLe d end_date

/-- The full row filter of the range queries. -/
def rowMatches (start_date end_date : Bytes) (provider : Option String) (r : Row) : Bool :=
  dateClause start_date end_date r.date && providerClause provider r.provider

/-- SQL `SUM`: `NULL` (here `none`) over the empty set, else the sum. -/
def sqlSum (l : List ℚ) : Option ℚ :=
  match l with
  | [] => none
  | _ => some l.sum

/-- `UsageStore.get_total_cost`: `SELECT SUM(cost) ... WHERE date >= ? AND
date <= ?` with the optional provider clause, then `return result or 0.0`
(both `NULL` and `0.0` land on `0.0`). -/
def get_total_cost (s : State) (start_date end_date : Bytes)
    (provider : Option String) : ℚ :=
  match sqlSum ((s.filter (rowMatches start_date end_date provider)).map Row.cost) with
  | none => 0
  | some x => x

/-- Deduplicate, keeping the first occurrence of each element (the order in
which SQLite's grouping first meets each key). -/
def dedupFirst {α : Type} [DecidableEq α] : List α → List α
  | [] => []
  | k :: ks => k :: (dedupFirst ks).filter (fun k2 => k2 ≠ k)

/-- Insert `a` into `l` directly before the first element it must precede. -/
def insertOrd {α : Type} (before : α → α → Bool) (a : α) : List α → List α
  | [] => [a]
  | b :: bs => if before a b then a :: b :: bs else b :: insertOrd before a bs

/-- Insertion sort by the strict precedence `before` (the `ORDER BY` of the
queries; the relative order of ties is unspecified in SQL and irrelevant to
every property below). -/
def sortOrd {α : Type} (before : α → α → Bool) : List α → List α
  | [] => []
  | a :: as => insertOrd before a (sortOrd before as)

/-- One output row of `get_usage` (`dict(row)` of the SELECT columns). -/
structure OutRow where
  date : Bytes
  provider : String
  model : String
  input_tokens : Int
  output_tokens : Int
  cache_read_tokens : Int
  cache_creation_tokens : Int
  cost : ℚ
deriving Repr, DecidableEq

/-- The aggregate row of one `(date, provider, model)` group. -/
def groupRow (rows : List Row) (k : Bytes × String × String) : OutRow :=
  let g := rows.filter (fun r => rowKey r = k)
  { date := k.1, provider := k.2.1, model := k.2.2,
    input_tokens := (g.map Row.input_tokens).sum,
    output_tokens := (g.map Row.output_tokens).sum,
    cache_read_tokens := (g.map Row.cache_read_tokens).sum,
    cache_creation_tokens := (g.map Row.cache_creation_tokens).sum,
    cost := (g.map Row.cost).sum }

/-- `UsageStore.get_usage`: inclusive date-bounded scan with optional
provider clause, `GROUP BY date, provider, model` with `SUM` of every
numeric column, `ORDER BY date DESC`. -/
def get_usage (s : State) (start_date end_date : Bytes)
    (provider : Option String) : List OutRow :=
  let filtered := s.filter (rowMatches start_date end_date provider)
  let grouped := (dedupFirst (filtered.map rowKey)).map (groupRow filtered)
  sortOrd (fun o1 o2 => bytesLt o2.date o1.date) grouped

/-- `UsageStore.get_cost_by_model`: `SELECT model, SUM(cost) ... GROUP BY
model ORDER BY cost DESC`, returned as the association list backing the
Python dict. -/
def get_cost_by_model (s : State) (start_date end_date : Bytes)
    (provider : Option String) : List (String × ℚ) :=
  let filtered := s.filter (rowMatches start_date end_date provider)
  let grouped := (dedupFirst (filtered.map Row.model)).map
    (fun m => (m, ((filtered.filter (fun r => r.model = m)).map Row.cost).sum))
  sortOrd (fun a b => decide (b.2 < a.2)) grouped

/-! ## Calendar days

The code stores dates as Python `%Y-%m-%d` strings (`YYYY-MM-DD`,
zero-padded) and the SQL range clauses compare them as TEXT.  The spec's
range-sum property quantifies over calendar days, so calendar days are
embedded explicitly and related to their formatted byte strings. -/

/-- A calendar day as year/month/day numbers. -/
structure Date where
  year : Nat
  month : Nat
  day : Nat
deriving Repr, DecidableEq

/-- Gregorian leap year. -/
def isLeap (y : Nat) : Prop := (y % 4 = 0 ∧ y % 100 ≠ 0) ∨ y % 400 = 0

instance (y : Nat) : Decidable (isLeap y) := by unfold isLeap; infer_instance

/-- Number of days in a month. -/
def daysInMonth (y m : Nat) : Nat :=
  if m = 2 then (if isLeap y then 29 else 28)
  else if m = 4 ∨ m = 6 ∨ m = 9 ∨ m = 11 then 30
  else 31

/-- A well-formed calendar day within `datetime`'s four-digit-year range. -/
def Date.valid (d : Date) : Prop :=
  1 ≤ d.year ∧ d.year ≤ 9999 ∧ 1 ≤ d.month ∧ d.month ≤ 12 ∧
  1 ≤ d.day ∧ d.day ≤ daysInMonth d.year d.month

instance (d : Date) : Decidable d.valid := by unfold Date.valid; infer_instance

/-- Chronological order of calendar days (lexicographic on year, month, day). -/
def Date.le (a b : Date) : Prop :=
  a.year < b.year ∨ (a.year = b.year ∧
    (a.month < b.month ∨ (a.month = b.month ∧ a.day ≤ b.day)))

instance (a b : Date) : Decidable (Date.le a b) := by unfold Date.le; infer_instance

/-- Strict chronological order of calendar days. -/
def Date.lt (a b : Date) : Prop :=
  a.year < b.year ∨ (a.year = b.year ∧
    (a.month < b.month ∨ (a.month = b.month ∧ a.day < b.day)))

instance (a b : Date) : Decidable (Date.lt a b) := by unfold Date.lt; infer_instance

/-- The calendar day after `d` (what `datetime + timedelta(days=1)` yields). -/
def nextDay (d : Date) : Date :=
  if d.day < daysInMonth d.year d.month then ⟨d.year, d.month, d.day + 1⟩
  else if d.month < 12 then ⟨d.year, d.month + 1, 1⟩
  else ⟨d.year + 1, 1, 1⟩

/-- Two-digit zero-padded decimal, as bytes. -/
def pad2 (n : Nat) : Bytes := [48 + n / 10, 48 + n % 10]

/-- Four-digit zero-padded decimal, as bytes. -/
def pad4 (n : Nat) : Bytes := [48 + n / 1000, 48 + n / 100 % 10, 48 + n / 10 % 10, 48 + n % 10]

/-- The `%Y-%m-%d` byte string of a calendar day (45 is `'-'`). -/
def fmtDate (d : Date) : Bytes := pad4 d.year ++ [45] ++ pad2 d.month ++ [45] ++ pad2 d.day

/-- The UTF-8 bytes of a Python string literal (how a TEXT parameter reaches
SQLite). -/
def strBytes (s : String) : Bytes := utf8Encode s

/-! ## Cost calculator (spec-modelled) and the fetch caller

Modelled from the spec: `scripts/calc_cost.py` (imported by
`scripts/fetch_usage.py` as `from calc_cost import calculate_cost,
MODEL_PRICING`) is not among the available sources; `MODEL_PRICING` and
`calculate_cost` are modelled from spec §2, §4.1: a static table mapping
model identifiers to per-token rates (pre-divided from per-million prices,
missing cache rates 0), resolution by exact name then longest matching
name-pattern occurring at the start of the model id, and a result of
"unknown" (`none`), distinct from a numeric 0, when nothing matches. -/

/-- Per-token rates of one pricing-table entry (spec §3 `PricingEntry`). -/
structure PricingEntry where
  input : ℚ
  output : ℚ
  cache_read : ℚ
  cache_write : ℚ
deriving Repr, DecidableEq

/-- Modelled from the spec: the static pricing table (representative
entries; per-million prices pre-divided to per-token rates, cache rates 0
where a provider publishes none). -/
def MODEL_PRICING : List (String × PricingEntry) :=
  [("gpt-4", ⟨30 / 1000000, 60 / 1000000, 0, 0⟩),
   ("gpt-4o", ⟨(5 : ℚ) / 2 / 1000000, 10 / 1000000, 0, 0⟩),
   ("gpt-3.5-turbo", ⟨(1 : ℚ) / 2 / 1000000, (3 : ℚ) / 2 / 1000000, 0, 0⟩),
   ("claude-3-opus", ⟨15 / 1000000, 75 / 1000000, (3 : ℚ) / 2 / 1000000, (75 : ℚ) / 4 / 1000000⟩),
   ("claude-3-sonnet", ⟨3 / 1000000, 15 / 1000000, (3 : ℚ) / 10 / 1000000, (15 : ℚ) / 4 / 1000000⟩)]

/-- `pre` occurs at the start of `s` (Python's `s.startswith(pre)`). -/
def startsWith (pre s : String) : Bool := pre.data.isPrefixOf s.data

/-- Modelled from the spec: resolve a model id against the table — exact
match first, else the longest entry whose name starts the model id. -/
def lookupPricing (model : String) : Option PricingEntry :=
  match MODEL_PRICING.lookup model with
  | some e => some e
  | none =>
      match (MODEL_PRICING.filter (fun p => startsWith p.1 model)).foldl
          (fun best p =>
            match best with
            | none => some p
            | some b => if b.1.length < p.1.length then some p else some b) none with
      | some p => some p.2
      | none => none

/-- Modelled from the spec: `calculate_cost(model, input_tokens,
output_tokens, cache_read_tokens=0, cache_creation_tokens=0) → cost |
unknown`; `none` is the "no rate available" signal. -/
def calculate_cost (model : String)
    (input_tokens output_tokens cache_read_tokens cache_creation_tokens : Nat) : Option ℚ :=
  match lookupPricing model with
  | none => none
  | some e => some (input_tokens * e.input + output_tokens * e.output
      + cache_read_tokens * e.cache_read + cache_creation_tokens * e.cache_write)

/-- One element of the `data` array of the OpenAI usage response, with the
fields `fetch_openai_usage` reads. -/
structure OpenAIItem where
  snapshot_id : String
  n_context_tokens_total : Nat
  n_generated_tokens_total : Nat
deriving Repr, DecidableEq

/-- One normalized usage record built by the fetch functions. -/
structure FetchRecord where
  provider : String
  model : String
  input_tokens : Nat
  output_tokens : Nat
  cache_read_tokens : Nat
  cache_creation_tokens : Nat
  cost : Option ℚ
deriving Repr, DecidableEq

/-- The record-construction loop of `fetch_openai_usage` (scripts/
fetch_usage.py): skip items with zero context and generated totals, then
record the item's tokens with `cost = calculate_cost(model, input_tokens,
output_tokens)`, passed through unchanged. -/
def fetch_openai_usage (data : List OpenAIItem) : List FetchRecord :=
  (data.filter (fun it =>
      !(it.n_context_tokens_total == 0 && it.n_generated_tokens_total == 0))).map
    (fun it =>
      { provider := "openai", model := it.snapshot_id,
        input_tokens := it.n_context_tokens_total,
        output_tokens := it.n_generated_tokens_total,
        cache_read_tokens := 0, cache_creation_tokens := 0,
        cost := calculate_cost it.snapshot_id it.n_context_tokens_total
                  it.n_generated_tokens_total 0 0 })

/-! ## Notification fan-out (scripts/notify.py) -/

/-- What one channel's underlying transport does for a given message: the
HTTP exchange yields a success/failure boolean, or raises. Every registered
channel's `send` wraps its transport in `try/except` and returns `False`
when it raises (the console channel performs no transport at all). -/
inductive SendOutcome where
  | ok (b : Bool)
  | transportError
deriving Repr, DecidableEq

/-- The names registered in the `CHANNELS` dict. -/
def CHANNELS : List String :=
  ["console", "feishu", "telegram", "discord", "slack", "webhook"]

/-- A channel object's `send`: the transport outcome converted to a
boolean (a raised transport error becomes `False`). -/
def channelSend (outcome : SendOutcome) : Bool :=
  match outcome with
  | .ok b => b
  | .transportError => false

/-- `get_channel`: `CHANNELS.get(name.lower())`. -/
def get_channel (name : String) : Option String :=
  if CHANNELS.contains name.toLower then some name.toLower else none

/-- `send_notification`: default the channel list to `["console"]`, then for
each requested name look it up and attempt its send, recording `False` for
unknown names.  `outcomes` gives each channel's transport behaviour for this
message; the Python `results` dict is returned as the association list of
its insertions. -/
def send_notification (channels : List String) (outcomes : String → SendOutcome) :
    List (String × Bool) :=
  let cs := if channels.isEmpty then ["console"] else channels
  cs.map (fun name =>
    match get_channel name with
    | some _ => (name, channelSend (outcomes name))
    | none => (name, false))

/-! ## Helper lemmas about the upsert -/

theorem rowIdent_addDeltaRow (r f : Row) : rowIdent (addDeltaRow r f) = rowIdent r := rfl

theorem addDeltaRow_assoc (r f1 f2 : Row) :
    addDeltaRow (addDeltaRow r f1) f2 = addDeltaRow r (addDeltaRow f1 f2) := by
  simp [addDeltaRow, add_assoc]

theorem upsertRow_of_no_match (s : State) (f : Row)
    (h : ∀ r ∈ s, rowIdent r ≠ rowIdent f) : upsertRow s f = s ++ [f] := by
  induction s with
  | nil => rfl
  | cons r rs ih =>
      simp only [upsertRow]
      simp only [List.mem_cons] at h
      rw [if_neg (h r (Or.inl rfl)), ih (fun r2 hr2 => h r2 (Or.inr hr2))]
      rfl

theorem upsertRow_of_match (s : State) (f : Row)
    (hnd : s.Pairwise (fun r1 r2 => rowIdent r1 ≠ rowIdent r2))
    (r0 : Row) (hr0 : r0 ∈ s) (hid : rowIdent r0 = rowIdent f) :
    upsertRow s f
      = s.map (fun r => if rowIdent r = rowIdent f then addDeltaRow r f else r) := by
  induction s with
  | nil => cases hr0
  | cons r rs ih =>
      simp only [upsertRow, List.map_cons]
      rcases List.mem_cons.mp hr0 with h0 | h0
      · subst h0
        rw [if_pos hid, if_pos hid]
        have hnone : ∀ r2 ∈ rs, ¬(rowIdent r2 = rowIdent f) := by
          intro r2 hr2 hcontra
          exact (List.pairwise_cons.mp hnd).1 r2 hr2 (hid.trans hcontra.symm)
        have hmap : rs.map (fun r => if rowIdent r = rowIdent f then addDeltaRow r f else r)
            = rs.map id := by
          apply List.map_congr_left
          intro r2 hr2
          rw [if_neg (hnone r2 hr2)]
          rfl
        rw [hmap, List.map_id]
      · by_cases hhead : rowIdent r = rowIdent f
        · have hnone : ∀ r2 ∈ rs, ¬(rowIdent r2 = rowIdent f) := by
            intro r2 hr2 hcontra
            exact (List.pairwise_cons.mp hnd).1 r2 hr2 (hhead.trans hcontra.symm)
          exact absurd hid (hnone r0 h0)
        · rw [if_neg hhead, if_neg hhead,
              ih (List.pairwise_cons.mp hnd).2 h0]

theorem upsertRow_upsertRow (s : State) (f1 f2 : Row)
    (hid : rowIdent f1 = rowIdent f2) :
    upsertRow (upsertRow s f1) f2 = upsertRow s (addDeltaRow f1 f2) := by
  induction s with
  | nil =>
      simp only [upsertRow, rowIdent_addDeltaRow]
      rw [if_pos hid]
  | cons r rs ih =>
      simp only [upsertRow]
      by_cases hr : rowIdent r = rowIdent f1
      · rw [if_pos hr]
        simp only [upsertRow, rowIdent_addDeltaRow]
        rw [if_pos (hr.trans hid), if_pos hr, addDeltaRow_assoc]
      · rw [if_neg hr]
        simp only [upsertRow, rowIdent_addDeltaRow]
        rw [if_neg (fun hc => hr (hc.trans hid.symm)), if_neg (fun hc => hr hc), ih]

/-! ## C1 -/

/-- C1: `add_usage` is an additive upsert.  With no row for the identity
tuple `(date, provider, hash of the credential, model)` it appends a fresh
row with the given values; with an existing row (identity tuples are unique
in reachable tables, the `UNIQUE` constraint) it adds every numeric field
into that row and leaves every other row untouched; and a call with deltas
D1 followed by a call with deltas D2 produces exactly the state of a single
call with D1+D2, for every numeric field. -/
theorem add_usage_additive_upsert
    (s : State) (date : Bytes) (provider api_key model : String)
    (i1 o1 cr1 cc1 : Int) (c1 : ℚ) (i2 o2 cr2 cc2 : Int) (c2 : ℚ) :
    ((∀ r ∈ s, rowIdent r ≠ (date, provider, hash_key api_key, model)) →
      add_usage s date provider api_key model i1 o1 cr1 cc1 c1
        = s ++ [⟨date, provider, hash_key api_key, model, i1, o1, cr1, cc1, c1⟩]) ∧
    (s.Pairwise (fun r1 r2 => rowIdent r1 ≠ rowIdent r2) →
      ∀ r0 ∈ s, rowIdent r0 = (date, provider, hash_key api_key, model) →
      add_usage s date provider api_key model i1 o1 cr1 cc1 c1
        = s.map (fun r => if rowIdent r = (date, provider, hash_key api_key, model) then
            { r with
              input_tokens := r.input_tokens + i1,
              output_tokens := r.output_tokens + o1,
              cache_read_tokens := r.cache_read_tokens + cr1,
              cache_creation_tokens := r.cache_creation_tokens + cc1,
              cost := r.cost + c1 }
          else r)) ∧
    add_usage (add_usage s date provider api_key model i1 o1 cr1 cc1 c1)
        date provider api_key model i2 o2 cr2 cc2 c2
      = add_usage s date provider api_key model
          (i1 + i2) (o1 + o2) (cr1 + cr2) (cc1 + cc2) (c1 + c2) := by
  refine ⟨fun h => ?_, fun hnd r0 hr0 hid => ?_, ?_⟩
  · exact upsertRow_of_no_match s _ h
  · exact upsertRow_of_match s _ hnd r0 hr0 hid
  · exact (upsertRow_upsertRow s
      ⟨date, provider, hash_key api_key, model, i1, o1, cr1, cc1, c1⟩
      ⟨date, provider, hash_key api_key, model, i2, o2, cr2, cc2, c2⟩ rfl).trans rfl

/-- Witness for C1, on the spec §8 scenario: first ingestion inserts the row
as given, and D1-then-D2 equals a single D1+D2 call. -/
theorem add_usage_additive_upsert_witness :
    add_usage [] (fmtDate ⟨2024, 6, 1⟩) "anthropic" "k1" "claude-3-opus"
        1000 500 0 0 (9 / 200)
      = [⟨fmtDate ⟨2024, 6, 1⟩, "anthropic", hash_key "k1", "claude-3-opus",
          1000, 500, 0, 0, 9 / 200⟩] ∧
    add_usage (add_usage [] (fmtDate ⟨2024, 6, 1⟩) "anthropic" "k1" "claude-3-opus"
        1000 500 0 0 (9 / 200)) (fmtDate ⟨2024, 6, 1⟩) "anthropic" "k1" "claude-3-opus"
        500 200 0 0 (1 / 50)
      = add_usage [] (fmtDate ⟨2024, 6, 1⟩) "anthropic" "k1" "claude-3-opus"
          1500 700 0 0 (13 / 200) := by
  constructor
  · exact (add_usage_additive_upsert [] (fmtDate ⟨2024, 6, 1⟩) "anthropic" "k1"
      "claude-3-opus" 1000 500 0 0 (9 / 200) 0 0 0 0 0).1 (by simp)
  · have h := (add_usage_additive_upsert [] (fmtDate ⟨2024, 6, 1⟩) "anthropic" "k1"
      "claude-3-opus" 1000 500 0 0 (9 / 200) 500 200 0 0 (1 / 50)).2.2
    norm_num at h
    exact h

/-! ## C4 -/

theorem get_total_cost_eq_sum (s : State) (a b : Bytes) (p : Option String) :
    get_total_cost s a b p = ((s.filter (rowMatches a b p)).map Row.cost).sum := by
  rcases hl : (s.filter (rowMatches a b p)).map Row.cost with _ | ⟨q, qs⟩ <;>
    simp [get_total_cost, sqlSum, hl]

/-- C4: `get_total_cost` over a range and optional provider filter matching
no stored row returns the value `0` (the `SUM` is `NULL` and `result or 0.0`
lands on `0.0`) rather than failing, and in general returns the sum of the
`cost` fields of the matching rows. -/
theorem get_total_cost_zero_or_sum (s : State) (a b : Bytes) (p : Option String) :
    ((∀ r ∈ s, rowMatches a b p r = false) → get_total_cost s a b p = 0) ∧
    get_total_cost s a b p = ((s.filter (rowMatches a b p)).map Row.cost).sum := by
  refine ⟨fun h => ?_, get_total_cost_eq_sum s a b p⟩
  rw [get_total_cost_eq_sum, List.filter_eq_nil_iff.mpr (fun r hr => by simp [h r hr])]
  rfl

/-- Witness for C4: a one-row table queried over a disjoint range gives 0. -/
theorem get_total_cost_zero_or_sum_witness :
    get_total_cost [⟨strBytes "2024-06-01", "openai", "h", "gpt-4", 1, 1, 0, 0, 5⟩]
        (strBytes "2024-07-01") (strBytes "2024-07-31") none = 0 :=
  (get_total_cost_zero_or_sum [⟨strBytes "2024-06-01", "openai", "h", "gpt-4", 1, 1, 0, 0, 5⟩]
      (strBytes "2024-07-01") (strBytes "2024-07-31") none).1 (by decide)

/-! ## C10 -/

/-- C10: passing the empty string as the provider argument is identical to
passing `None`: `if provider:` is false for `""`, so no `AND provider = ?`
clause is added and the aggregates cover all providers. -/
theorem empty_provider_means_no_filter (s : State) (a b : Bytes) :
    get_usage s a b (some "") = get_usage s a b none ∧
    get_total_cost s a b (some "") = get_total_cost s a b none ∧
    get_cost_by_model s a b (some "") = get_cost_by_model s a b none := by
  have h : rowMatches a b (some "") = rowMatches a b none := by
    funext r
    have he : ("" : String).isEmpty = true := rfl
    simp [rowMatches, providerClause, he]
  refine ⟨?_, ?_, ?_⟩ <;> simp only [get_usage, get_total_cost, get_cost_by_model, h]

/-! ## C8 -/

theorem hexdigest_length (hv : H8) : (hexdigest hv).length = 64 := by
  simp [hexdigest, hex8]

theorem hash_key_length (k : String) : (hash_key k).length = 16 := by
  show (String.mk ((hexdigest (sha256 (utf8Encode k))).take 16)).length = 16
  show ((hexdigest (sha256 (utf8Encode k))).take 16).length = 16
  rw [List.length_take, hexdigest_length]
  simp

theorem upsertRow_hash_mem (s : State) (f : Row) :
    ∀ r ∈ upsertRow s f, r.api_key_hash = f.api_key_hash ∨ r.api_key_hash ∈ s.map Row.api_key_hash := by
  induction s with
  | nil =>
      intro r hr
      rw [List.mem_singleton.mp hr]
      exact Or.inl rfl
  | cons r0 rs ih =>
      intro r hr
      simp only [upsertRow] at hr
      split at hr
      · rcases List.mem_cons.mp hr with h | h
        · subst h
          exact Or.inr (by simp [addDeltaRow])
        · exact Or.inr (by simp [List.mem_cons.mpr (Or.inr (List.mem_map_of_mem _ h))])
      · rcases List.mem_cons.mp hr with h | h
        · subst h
          exact Or.inr (by simp)
        · rcases ih r h with h2 | h2
          · exact Or.inl h2
          · exact Or.inr (by simp [h2])

/-- C8: the raw credential never reaches the table.  `add_usage` persists
only `_hash_key(api_key)` — the SHA-256 hex digest truncated to 16
characters, a fixed length for every input — every credential-derived value
in the new state is that fingerprint or one already stored, equal
fingerprints make two calls indistinguishable (they hit the same row), and
so the stored state depends on the credential only through its
fingerprint. -/
theorem credential_fingerprint_only
    (s : State) (date : Bytes) (provider k1 k2 model : String)
    (i o cr cc : Int) (c : ℚ) :
    (hash_key k1 = hash_key k2 →
      add_usage s date provider k1 model i o cr cc c
        = add_usage s date provider k2 model i o cr cc c) ∧
    (hash_key k1).length = 16 ∧
    (∀ r ∈ add_usage s date provider k1 model i o cr cc c,
      r.api_key_hash = hash_key k1 ∨ r.api_key_hash ∈ s.map Row.api_key_hash) := by
  refine ⟨fun h => ?_, hash_key_length k1, ?_⟩
  · show upsertRow s _ = upsertRow s _
    rw [h]
  · exact upsertRow_hash_mem s _

/-- Witness for C8: equal keys give equal fingerprints, hence the same
resulting state, and the fingerprint has length 16. -/
theorem credential_fingerprint_only_witness :
    add_usage [] (strBytes "2024-06-01") "openai" "k1" "gpt-4" 1 1 0 0 1
      = add_usage [] (strBytes "2024-06-01") "openai" "k1" "gpt-4" 1 1 0 0 1 ∧
    (hash_key "k1").length = 16 :=
  ⟨(credential_fingerprint_only [] (strBytes "2024-06-01") "openai" "k1" "k1" "gpt-4"
      1 1 0 0 1).1 rfl,
   (credential_fingerprint_only [] (strBytes "2024-06-01") "openai" "k1" "k1" "gpt-4"
      1 1 0 0 1).2.1⟩

/-! ## C9 -/

/-- The success/failure value `send_notification` records for one requested
name: unknown names get `False`, known channels get their send's boolean. -/
def sendResultFor (outcomes : String → SendOutcome) (name : String) : Bool :=
  match get_channel name with
  | some _ => channelSend (outcomes name)
  | none => false

theorem send_notification_eq_map (channels : List String) (outcomes : String → SendOutcome) :
    send_notification channels outcomes
      = (if channels.isEmpty then ["console"] else channels).map
          (fun n => (n, sendResultFor outcomes n)) := by
  simp only [send_notification]
  apply List.map_congr_left
  intro n _
  unfold sendResultFor
  cases get_channel n <;> rfl

theorem lookup_map_pair (g : String → Bool) (name : String) (cs : List String) :
    (cs.map (fun n => (n, g n))).lookup name
      = if name ∈ cs then some (g name) else none := by
  induction cs with
  | nil => simp
  | cons c cs ih =>
      by_cases h : name = c
      · subst h
        simp [List.lookup]
      · simp only [List.map_cons, List.lookup, beq_eq_false_iff_ne.mpr h, List.mem_cons]
        simp [h, ih]

/-- C9: channel fan-out is isolated.  `send_notification` records one
success/failure entry for every requested channel, and the entry a channel
gets depends only on that channel's own transport outcome — however any
other listed channel fails (a returned failure or a raised transport error,
which its `send` converts to `False`), the attempt to this channel and its
recorded result are unchanged. -/
theorem send_notification_isolated
    (channels : List String) (outcomes1 outcomes2 : String → SendOutcome) (name : String) :
    (name ∈ channels → ∃ b, (name, b) ∈ send_notification channels outcomes1) ∧
    (outcomes1 name = outcomes2 name →
      (send_notification channels outcomes1).lookup name
        = (send_notification channels outcomes2).lookup name) ∧
    (send_notification channels outcomes1).length
      = (if channels.isEmpty then ["console"] else channels).length := by
  refine ⟨fun hmem => ?_, fun hagree => ?_, ?_⟩
  · refine ⟨sendResultFor outcomes1 name, ?_⟩
    rw [send_notification_eq_map]
    have hne : channels.isEmpty = false := by
      cases channels with
      | nil => cases hmem
      | cons c cs => rfl
    rw [hne]
    simpa using List.mem_map_of_mem (fun n => (n, sendResultFor outcomes1 n)) hmem
  · rw [send_notification_eq_map, send_notification_eq_map,
        lookup_map_pair, lookup_map_pair]
    have hsame : sendResultFor outcomes1 name = sendResultFor outcomes2 name := by
      unfold sendResultFor
      rw [hagree]
    rw [hsame]
  · rw [send_notification_eq_map, List.length_map]

/-- Witness for C9: with the slack transport raising and the console send
succeeding, the console entry exists and equals the one obtained when slack
succeeds. -/
theorem send_notification_isolated_witness :
    (∃ b, ("console", b) ∈ send_notification ["console", "slack"]
        (fun n => if n = "slack" then .transportError else .ok true)) ∧
    (send_notification ["console", "slack"]
        (fun n => if n = "slack" then .transportError else .ok true)).lookup "console"
      = (send_notification ["console", "slack"] (fun _ => .ok true)).lookup "console" :=
  ⟨(send_notification_isolated ["console", "slack"]
      (fun n => if n = "slack" then .transportError else .ok true)
      (fun _ => .ok true) "console").1 (by decide),
   (send_notification_isolated ["console", "slack"]
      (fun n => if n = "slack" then .transportError else .ok true)
      (fun _ => .ok true) "console").2.1 (by decide)⟩

/-! ## C7 -/

/-- C7 (spec-modelled calculator, source caller): `calculate_cost` on a
model with no pricing entry signals `none` ("unknown"), a value distinct
from the numeric cost `some 0`; and the records built by
`fetch_openai_usage` carry that calculator result through unchanged, so an
unpriced model is never recorded as a priced zero-cost value. -/
theorem unknown_model_distinct_from_zero :
    calculate_cost "totally-unknown-model-xyz" 100 100 0 0 = none ∧
    (none : Option ℚ) ≠ some 0 ∧
    (∀ (data : List OpenAIItem) (record : FetchRecord), record ∈ fetch_openai_usage data →
      calculate_cost record.model record.input_tokens record.output_tokens 0 0 = none →
      record.cost = none) := by
  refine ⟨by decide, by decide, ?_⟩
  intro data record hrec hunknown
  simp only [fetch_openai_usage, List.mem_map, List.mem_filter] at hrec
  obtain ⟨it, _, heq⟩ := hrec
  subst heq
  simpa using hunknown

/-- Witness for C7: the concrete unpriced item is fetched with `cost = none`. -/
theorem unknown_model_distinct_from_zero_witness :
    ({ provider := "openai", model := "totally-unknown-model-xyz",
       input_tokens := 100, output_tokens := 100,
       cache_read_tokens := 0, cache_creation_tokens := 0,
       cost := none } : FetchRecord).cost = none :=
  unknown_model_distinct_from_zero.2.2 [⟨"totally-unknown-model-xyz", 100, 100⟩]
    _ (by decide) (by decide)

/-! ## C5 (corrected) -/

/-- Counterexample for C5 as stated: nothing in `add_usage` validates its
numeric arguments, so a single call with negative deltas reaches a state
with a negative token counter and a negative cost accumulator. -/
theorem negative_deltas_reach_negative_row :
    ∃ r ∈ add_usage [] (strBytes "2024-06-01") "openai" "k" "gpt-4" (-1) 0 0 0 (-1),
      r.input_tokens < 0 ∧ r.cost < 0 := by
  refine ⟨⟨strBytes "2024-06-01", "openai", hash_key "k", "gpt-4", -1, 0, 0, 0, -1⟩,
    List.mem_singleton_self _, by constructor <;> norm_num⟩

/-- One `record_usage` call and its arguments. -/
structure UsageCall where
  date : Bytes
  provider : String
  api_key : String
  model : String
  input_tokens : Int
  output_tokens : Int
  cache_read_tokens : Int
  cache_creation_tokens : Int
  cost : ℚ
deriving Repr, DecidableEq

/-- Apply one `add_usage` call to the state. -/
def applyCall (s : State) (c : UsageCall) : State :=
  add_usage s c.date c.provider c.api_key c.model c.input_tokens c.output_tokens
    c.cache_read_tokens c.cache_creation_tokens c.cost

/-- Run a sequence of `add_usage` calls. -/
def runCalls (s : State) (cs : List UsageCall) : State := cs.foldl applyCall s

/-- All accumulators of a row are non-negative. -/
def nonnegRow (r : Row) : Prop :=
  0 ≤ r.input_tokens ∧ 0 ≤ r.output_tokens ∧ 0 ≤ r.cache_read_tokens ∧
  0 ≤ r.cache_creation_tokens ∧ 0 ≤ r.cost

instance (r : Row) : Decidable (nonnegRow r) := by unfold nonnegRow; infer_instance

/-- All numeric arguments of a call are non-negative. -/
def nonnegCall (c : UsageCall) : Prop :=
  0 ≤ c.input_tokens ∧ 0 ≤ c.output_tokens ∧ 0 ≤ c.cache_read_tokens ∧
  0 ≤ c.cache_creation_tokens ∧ 0 ≤ c.cost

instance (c : UsageCall) : Decidable (nonnegCall c) := by unfold nonnegCall; infer_instance

theorem upsertRow_nonneg (s : State) (f : Row)
    (hs : ∀ r ∈ s, nonnegRow r) (hf : nonnegRow f) :
    ∀ r ∈ upsertRow s f, nonnegRow r := by
  induction s with
  | nil =>
      intro r hr
      rw [List.mem_singleton.mp hr]
      exact hf
  | cons r0 rs ih =>
      intro r hr
      simp only [upsertRow] at hr
      have h0 := hs r0 (List.mem_cons_self r0 rs)
      have hrest : ∀ r2 ∈ rs, nonnegRow r2 := fun r2 h2 => hs r2 (List.mem_cons_of_mem _ h2)
      split at hr
      · rcases List.mem_cons.mp hr with h | h
        · subst h
          obtain ⟨a1, a2, a3, a4, a5⟩ := h0
          obtain ⟨b1, b2, b3, b4, b5⟩ := hf
          exact ⟨by simpa [addDeltaRow] using add_nonneg a1 b1,
                 by simpa [addDeltaRow] using add_nonneg a2 b2,
                 by simpa [addDeltaRow] using add_nonneg a3 b3,
                 by simpa [addDeltaRow] using add_nonneg a4 b4,
                 by simpa [addDeltaRow] using add_nonneg a5 b5⟩
        · exact hrest r h
      · rcases List.mem_cons.mp hr with h | h
        · subst h
          exact h0
        · exact ih hrest r h

theorem runCalls_nonneg (cs : List UsageCall) :
    ∀ s : State, (∀ r ∈ s, nonnegRow r) → (∀ c ∈ cs, nonnegCall c) →
    ∀ r ∈ runCalls s cs, nonnegRow r := by
  induction cs with
  | nil => exact fun s hs _ => hs
  | cons c cs ih =>
      intro s hs hcs
      apply ih (applyCall s c)
      · have hc := hcs c (List.mem_cons_self c cs)
        exact upsertRow_nonneg s _ hs ⟨hc.1, hc.2.1, hc.2.2.1, hc.2.2.2.1, hc.2.2.2.2⟩
      · exact fun c2 h2 => hcs c2 (List.mem_cons_of_mem _ h2)

/-- C5 amended: the code performs no validation, so non-negativity is an
invariant only of the states reachable by calls whose numeric arguments are
all non-negative; for every such call sequence from the empty table, every
row's token counters and cost accumulator are non-negative (a call with a
negative delta breaks it, see the counterexample). -/
theorem nonneg_invariant_of_nonneg_calls (cs : List UsageCall)
    (h : ∀ c ∈ cs, nonnegCall c) : ∀ r ∈ runCalls [] cs, nonnegRow r :=
  runCalls_nonneg cs [] (by simp) h

/-- Witness for amended C5: a two-call run with non-negative deltas. -/
theorem nonneg_invariant_of_nonneg_calls_witness :
    nonnegRow ⟨strBytes "2024-06-01", "openai", hash_key "k", "gpt-4", 3, 3, 0, 0, 3⟩ :=
  nonneg_invariant_of_nonneg_calls
    [⟨strBytes "2024-06-01", "openai", "k", "gpt-4", 1, 2, 0, 0, 1⟩,
     ⟨strBytes "2024-06-01", "openai", "k", "gpt-4", 2, 1, 0, 0, 2⟩]
    (by decide)
    ⟨strBytes "2024-06-01", "openai", hash_key "k", "gpt-4", 3, 3, 0, 0, 3⟩
    (by
      show _ ∈ upsertRow (upsertRow []
          ⟨strBytes "2024-06-01", "openai", hash_key "k", "gpt-4", 1, 2, 0, 0, 1⟩)
          ⟨strBytes "2024-06-01", "openai", hash_key "k", "gpt-4", 2, 1, 0, 0, 2⟩
      rw [upsertRow_upsertRow []
          ⟨strBytes "2024-06-01", "openai", hash_key "k", "gpt-4", 1, 2, 0, 0, 1⟩
          ⟨strBytes "2024-06-01", "openai", hash_key "k", "gpt-4", 2, 1, 0, 0, 2⟩ rfl]
      refine List.mem_singleton.mpr ?_
      simp only [addDeltaRow]
      norm_num)

/-! ## C6 (corrected) -/

theorem bytesLe_trans : ∀ (a b c : Bytes),
    bytesLe a b = true → bytesLe b c = true → bytesLe a c = true
  | [], _, _, _, _ => by simp [bytesLe]
  | _ :: _, [], _, h1, _ => by simp [bytesLe] at h1
  | _ :: _, _ :: _, [], _, h2 => by simp [bytesLe] at h2
  | x :: xs, y :: ys, z :: zs, h1, h2 => by
      simp only [bytesLe] at h1 h2 ⊢
      split_ifs at h1 h2 ⊢ <;> first
        | rfl
        | (exfalso; omega)
        | exact bytesLe_trans xs ys zs h1 h2
        | simp at h1
        | simp at h2

theorem bytesLe_of_bytesLt : ∀ (a b : Bytes), bytesLt a b = true → bytesLe a b = true
  | [], _, _ => by simp [bytesLe]
  | _ :: _, [], h => by simp [bytesLt] at h
  | x :: xs, y :: ys, h => by
      simp only [bytesLt] at h
      simp only [bytesLe]
      split_ifs at h ⊢ <;> first
        | rfl
        | (exfalso; omega)
        | exact bytesLe_of_bytesLt xs ys h
        | simp at h

theorem bytesLt_irrefl : ∀ (a : Bytes), bytesLt a a = false
  | [] => by simp [bytesLt]
  | x :: xs => by simp [bytesLt, bytesLt_irrefl xs]

theorem bytesLt_of_le_of_lt : ∀ (a b c : Bytes),
    bytesLe a b = true → bytesLt b c = true → bytesLt a c = true
  | [], _, _ :: _, _, _ => by simp [bytesLt]
  | [], [], [], _, h2 => h2
  | [], _ :: _, [], _, h2 => by simp [bytesLt] at h2
  | _ :: _, [], _, h1, _ => by simp [bytesLe] at h1
  | _ :: _, _ :: _, [], _, h2 => by simp [bytesLt] at h2
  | x :: xs, y :: ys, z :: zs, h1, h2 => by
      simp only [bytesLe] at h1
      simp only [bytesLt] at h2 ⊢
      split_ifs at h1 h2 ⊢ <;> first
        | rfl
        | (exfalso; omega)
        | exact bytesLt_of_le_of_lt xs ys zs h1 h2
        | simp at h1
        | simp at h2

/-- Counterexample for C6 as stated: a reversed range (end before start) and
even syntactically malformed dates are not rejected — no `InvalidRange`
failure exists anywhere in the code — the queries execute and compute a
result (the empty aggregate) from those arguments. -/
theorem reversed_range_not_rejected :
    get_total_cost [⟨strBytes "2024-06-01", "openai", "h", "gpt-4", 1, 1, 0, 0, 5⟩]
        (strBytes "2024-06-02") (strBytes "2024-06-01") none = 0 ∧
    get_usage [⟨strBytes "2024-06-01", "openai", "h", "gpt-4", 1, 1, 0, 0, 5⟩]
        (strBytes "2024-06-02") (strBytes "2024-06-01") none = [] ∧
    get_total_cost [⟨strBytes "2024-06-01", "openai", "h", "gpt-4", 1, 1, 0, 0, 5⟩]
        (strBytes "not-a-date") (strBytes "not-a-date-either") none = 0 := by
  refine ⟨by decide, by decide, by decide⟩

/-- C6 amended: `get_usage` and `get_total_cost` perform no range
validation; a query whose end date precedes its start date (in the byte
order SQLite applies to TEXT) is executed normally and — since no date can
be both `≥ start` and `≤ end` — returns the empty aggregate: no rows and a
total of `0`.  Malformed date strings are likewise executed as ordinary
strings rather than rejected. -/
theorem reversed_range_empty_aggregate (s : State) (a b : Bytes) (p : Option String)
    (hrev : bytesLt b a = true) :
    get_usage s a b p = [] ∧ get_total_cost s a b p = 0 := by
  have hfilter : s.filter (rowMatches a b p) = [] := by
    apply List.filter_eq_nil_iff.mpr
    intro r _
    intro hmatch
    simp only [rowMatches, dateClause, Bool.and_eq_true] at hmatch
    obtain ⟨⟨h1, h2⟩, _⟩ := hmatch
    have hab : bytesLe a b = true := bytesLe_trans a r.date b h1 h2
    have haa : bytesLt a a = true := bytesLt_of_le_of_lt a b a hab hrev
    rw [bytesLt_irrefl] at haa
    exact Bool.false_ne_true haa
  constructor
  · simp [get_usage, hfilter, dedupFirst, sortOrd]
  · rw [get_total_cost_eq_sum, hfilter]
    rfl

/-- Witness for amended C6: the one-row table queried with the reversed
range gives no rows and total 0. -/
theorem reversed_range_empty_aggregate_witness :
    get_usage [⟨strBytes "2024-06-01", "openai", "h", "gpt-4", 1, 1, 0, 0, 5⟩]
        (strBytes "2024-06-02") (strBytes "2024-06-01") none = [] ∧
    get_total_cost [⟨strBytes "2024-06-01", "openai", "h", "gpt-4", 1, 1, 0, 0, 5⟩]
        (strBytes "2024-06-02") (strBytes "2024-06-01") none = 0 :=
  reversed_range_empty_aggregate
    [⟨strBytes "2024-06-01", "openai", "h", "gpt-4", 1, 1, 0, 0, 5⟩]
    (strBytes "2024-06-02") (strBytes "2024-06-01") none (by decide)

/-! ## C3 -/

theorem mem_dedupFirst {α : Type} [DecidableEq α] (a : α) :
    ∀ l : List α, a ∈ dedupFirst l ↔ a ∈ l := by
  intro l
  induction l with
  | nil => simp [dedupFirst]
  | cons k ks ih =>
      simp only [dedupFirst, List.mem_cons, List.mem_filter, ih, decide_eq_true_eq]
      by_cases h : a = k
      · simp [h]
      · simp [h]

theorem nodup_dedupFirst {α : Type} [DecidableEq α] :
    ∀ l : List α, (dedupFirst l).Nodup := by
  intro l
  induction l with
  | nil => simp [dedupFirst]
  | cons k ks ih =>
      rw [dedupFirst, List.nodup_cons]
      refine ⟨fun hmem => ?_, ih.filter _⟩
      rw [List.mem_filter] at hmem
      simp at hmem

theorem insertOrd_perm {α : Type} (before : α → α → Bool) (a : α) :
    ∀ l : List α, (insertOrd before a l).Perm (a :: l) := by
  intro l
  induction l with
  | nil => exact List.Perm.refl _
  | cons b bs ih =>
      rw [insertOrd]
      split
      · exact List.Perm.refl _
      · exact (List.Perm.cons b ih).trans (List.Perm.swap a b bs)

theorem sortOrd_perm {α : Type} (before : α → α → Bool) :
    ∀ l : List α, (sortOrd before l).Perm l := by
  intro l
  induction l with
  | nil => exact List.Perm.refl _
  | cons a as ih =>
      rw [sortOrd]
      exact (insertOrd_perm before a (sortOrd before as)).trans (List.Perm.cons a ih)

theorem get_usage_perm (s : State) (a b : Bytes) (p : Option String) :
    (get_usage s a b p).Perm
      ((dedupFirst ((s.filter (rowMatches a b p)).map rowKey)).map
        (groupRow (s.filter (rowMatches a b p)))) :=
  sortOrd_perm _ _

theorem groupRow_key (rows : List Row) (k : Bytes × String × String) :
    ((groupRow rows k).date, (groupRow rows k).provider, (groupRow rows k).model) = k := rfl

theorem filter_filter_and (s : State) (q : Row → Bool) (k : Bytes × String × String) :
    (s.filter q).filter (fun r => rowKey r = k)
      = s.filter (fun r => q r = true ∧ rowKey r = k) := by
  rw [List.filter_filter]
  apply List.filter_congr
  intro r _
  simp [Bool.and_comm]

/-- C3: `get_usage` returns exactly the matching rows, grouped.  A group key
`(date, provider, model)` appears in the output iff some stored row matches
the inclusive date bounds and the optional provider filter with that key;
each output row carries, in every numeric column, the sum of that column
over exactly the matching stored rows of its group; and no group key is
repeated. -/
theorem get_usage_grouped_sums (s : State) (a b : Bytes) (p : Option String) :
    (∀ k : Bytes × String × String,
      (∃ o ∈ get_usage s a b p, (o.date, o.provider, o.model) = k)
        ↔ (∃ r ∈ s, rowMatches a b p r = true ∧ rowKey r = k)) ∧
    (∀ o ∈ get_usage s a b p,
      o.input_tokens = ((s.filter (fun r => rowMatches a b p r = true ∧
          rowKey r = (o.date, o.provider, o.model))).map Row.input_tokens).sum ∧
      o.output_tokens = ((s.filter (fun r => rowMatches a b p r = true ∧
          rowKey r = (o.date, o.provider, o.model))).map Row.output_tokens).sum ∧
      o.cache_read_tokens = ((s.filter (fun r => rowMatches a b p r = true ∧
          rowKey r = (o.date, o.provider, o.model))).map Row.cache_read_tokens).sum ∧
      o.cache_creation_tokens = ((s.filter (fun r => rowMatches a b p r = true ∧
          rowKey r = (o.date, o.provider, o.model))).map Row.cache_creation_tokens).sum ∧
      o.cost = ((s.filter (fun r => rowMatches a b p r = true ∧
          rowKey r = (o.date, o.provider, o.model))).map Row.cost).sum) ∧
    ((get_usage s a b p).map (fun o => (o.date, o.provider, o.model))).Nodup := by
  have hperm := get_usage_perm s a b p
  refine ⟨fun k => ?_, fun o ho => ?_, ?_⟩
  · constructor
    · rintro ⟨o, ho, hk⟩
      rw [List.Perm.mem_iff hperm, List.mem_map] at ho
      obtain ⟨k2, hk2, rfl⟩ := ho
      rw [groupRow_key] at hk
      subst hk
      rw [mem_dedupFirst, List.mem_map] at hk2
      obtain ⟨r, hr, hkey⟩ := hk2
      rw [List.mem_filter] at hr
      exact ⟨r, hr.1, hr.2, hkey⟩
    · rintro ⟨r, hr, hmatch, hkey⟩
      refine ⟨groupRow (s.filter (rowMatches a b p)) k, ?_, groupRow_key _ k⟩
      rw [List.Perm.mem_iff hperm, List.mem_map]
      refine ⟨k, ?_, rfl⟩
      rw [mem_dedupFirst, List.mem_map]
      exact ⟨r, List.mem_filter.mpr ⟨hr, hmatch⟩, hkey⟩
  · rw [List.Perm.mem_iff hperm, List.mem_map] at ho
    obtain ⟨k2, _, rfl⟩ := ho
    rw [groupRow_key]
    simp only [groupRow, ← filter_filter_and]
    exact ⟨trivial, trivial, trivial, trivial, trivial⟩
  · have hmapperm := hperm.map (fun o => (o.date, o.provider, o.model))
    rw [List.Perm.nodup_iff hmapperm, List.map_map]
    have hid : ((dedupFirst ((s.filter (rowMatches a b p)).map rowKey)).map
        ((fun o : OutRow => (o.date, o.provider, o.model)) ∘
          groupRow (s.filter (rowMatches a b p))))
        = (dedupFirst ((s.filter (rowMatches a b p)).map rowKey)).map id :=
      List.map_congr_left (fun k _ => groupRow_key _ k)
    rw [hid, List.map_id]
    exact nodup_dedupFirst _

/-- Witness for C3, on the spec §8 scenario key: the grouped output of a
one-row table contains its `(date, provider, model)` key. -/
theorem get_usage_grouped_sums_witness :
    ∃ o ∈ get_usage [⟨strBytes "2024-06-01", "openai", "h", "gpt-4", 1, 2, 0, 0, 5⟩]
        (strBytes "2024-06-01") (strBytes "2024-06-01") none,
      (o.date, o.provider, o.model) = (strBytes "2024-06-01", "openai", "gpt-4") :=
  ((get_usage_grouped_sums [⟨strBytes "2024-06-01", "openai", "h", "gpt-4", 1, 2, 0, 0, 5⟩]
      (strBytes "2024-06-01") (strBytes "2024-06-01") none).1
    (strBytes "2024-06-01", "openai", "gpt-4")).mpr
    ⟨⟨strBytes "2024-06-01", "openai", "h", "gpt-4", 1, 2, 0, 0, 5⟩,
      List.mem_singleton_self _, by decide, rfl⟩

/-! ## C2: the byte order on `%Y-%m-%d` strings is the calendar order -/

theorem bytesLe_cons_same (a : Nat) (as bs : Bytes) :
    bytesLe (a :: as) (a :: bs) = bytesLe as bs := by
  simp [bytesLe]

theorem pad4_le_append (y1 y2 : Nat) (r1 r2 : Bytes) (h1 : y1 ≤ 9999) (h2 : y2 ≤ 9999) :
    bytesLe (pad4 y1 ++ r1) (pad4 y2 ++ r2)
      = if y1 < y2 then true else if y2 < y1 then false else bytesLe r1 r2 := by
  simp only [pad4, List.cons_append, List.nil_append, bytesLe]
  split_ifs <;> first | rfl | omega | (exfalso; omega)

theorem pad2_le_append (m1 m2 : Nat) (r1 r2 : Bytes) (h1 : m1 ≤ 99) (h2 : m2 ≤ 99) :
    bytesLe (pad2 m1 ++ r1) (pad2 m2 ++ r2)
      = if m1 < m2 then true else if m2 < m1 then false else bytesLe r1 r2 := by
  simp only [pad2, List.cons_append, List.nil_append, bytesLe]
  split_ifs <;> first | rfl | omega | (exfalso; omega)

theorem daysInMonth_le (y m : Nat) : daysInMonth y m ≤ 31 := by
  unfold daysInMonth
  split_ifs <;> omega

theorem daysInMonth_pos (y m : Nat) : 1 ≤ daysInMonth y m := by
  unfold daysInMonth
  split_ifs <;> omega

theorem fmtDate_le_iff (a b : Date) (ha : a.valid) (hb : b.valid) :
    (bytesLe (fmtDate a) (fmtDate b) = true) ↔ Date.le a b := by
  obtain ⟨y1, m1, d1⟩ := a
  obtain ⟨y2, m2, d2⟩ := b
  simp only [Date.valid] at ha hb
  have hda := daysInMonth_le y1 m1
  have hdb := daysInMonth_le y2 m2
  simp only [fmtDate, List.append_assoc]
  rw [pad4_le_append y1 y2 _ _ (by omega) (by omega)]
  simp only [List.singleton_append]
  rw [bytesLe_cons_same, pad2_le_append m1 m2 _ _ (by omega) (by omega),
      bytesLe_cons_same, ← List.append_nil (pad2 d1), ← List.append_nil (pad2 d2),
      pad2_le_append d1 d2 [] [] (by omega) (by omega)]
  simp only [Date.le]
  split_ifs <;> simp [bytesLe] <;> omega

theorem nextDay_gt (b : Date) : Date.lt b (nextDay b) := by
  obtain ⟨y, m, d⟩ := b
  unfold nextDay
  split_ifs <;> simp [Date.lt]

theorem nextDay_valid (b c : Date) (hb : b.valid) (hc : c.valid) (hlt : Date.lt b c) :
    (nextDay b).valid := by
  obtain ⟨y, m, d⟩ := b
  obtain ⟨y2, m2, d2⟩ := c
  simp only [Date.valid] at hb hc ⊢
  simp only [Date.lt] at hlt
  unfold nextDay
  dsimp only at *
  split_ifs with h1 h2 <;> simp only [Date.valid]
  · exact ⟨hb.1, hb.2.1, hb.2.2.1, hb.2.2.2.1, by omega, by omega⟩
  · refine ⟨hb.1, hb.2.1, by omega, by omega, by omega, daysInMonth_pos y (m + 1)⟩
  · have hy : y < y2 := by
      rcases hlt with h | ⟨rfl, h⟩
      · exact h
      · rcases h with h | ⟨rfl, h⟩
        · omega
        · omega
    exact ⟨by omega, by omega, by omega, by omega, by omega, daysInMonth_pos (y + 1) 1⟩

theorem nextDay_min (b d : Date) (hb : b.valid) (hd : d.valid) (hlt : Date.lt b d) :
    Date.le (nextDay b) d := by
  obtain ⟨y, m, dd⟩ := b
  obtain ⟨y3, m3, d3⟩ := d
  simp only [Date.valid] at hb hd
  simp only [Date.lt] at hlt
  unfold nextDay
  dsimp only at *
  split_ifs with h1 h2 <;> simp only [Date.le]
  · omega
  · rcases hlt with h | ⟨rfl, h⟩
    · omega
    · rcases h with h | ⟨rfl, h⟩
      · omega
      · omega
  · rcases hlt with h | ⟨rfl, h⟩
    · omega
    · rcases h with h | ⟨rfl, h⟩
      · omega
      · omega

theorem dateLe_trans (a b c : Date) (h1 : Date.le a b) (h2 : Date.le b c) : Date.le a c := by
  obtain ⟨y1, m1, d1⟩ := a
  obtain ⟨y2, m2, d2⟩ := b
  obtain ⟨y3, m3, d3⟩ := c
  simp only [Date.le] at *
  omega

theorem dateLe_total (a b : Date) : Date.le a b ∨ Date.lt b a := by
  obtain ⟨y1, m1, d1⟩ := a
  obtain ⟨y2, m2, d2⟩ := b
  simp only [Date.le, Date.lt]
  omega

theorem dateLt_of_le_of_lt (a b c : Date) (h1 : Date.le a b) (h2 : Date.lt b c) : Date.lt a c := by
  obtain ⟨y1, m1, d1⟩ := a
  obtain ⟨y2, m2, d2⟩ := b
  obtain ⟨y3, m3, d3⟩ := c
  simp only [Date.le, Date.lt] at *
  omega

theorem dateLt_of_lt_of_le (a b c : Date) (h1 : Date.lt a b) (h2 : Date.le b c) : Date.lt a c := by
  obtain ⟨y1, m1, d1⟩ := a
  obtain ⟨y2, m2, d2⟩ := b
  obtain ⟨y3, m3, d3⟩ := c
  simp only [Date.le, Date.lt] at *
  omega

theorem dateLe_of_lt (a b : Date) (h : Date.lt a b) : Date.le a b := by
  obtain ⟨y1, m1, d1⟩ := a
  obtain ⟨y2, m2, d2⟩ := b
  simp only [Date.le, Date.lt] at *
  omega

theorem dateLt_asymm (a b : Date) (h1 : Date.le a b) (h2 : Date.lt b a) : False := by
  obtain ⟨y1, m1, d1⟩ := a
  obtain ⟨y2, m2, d2⟩ := b
  simp only [Date.le, Date.lt] at *
  omega

theorem date_partition (A B C dd : Date) (hB : B.valid) (hC : C.valid) (hdd : Date.valid dd)
    (hAB : Date.le A B) (hBC : Date.lt B C) :
    ((Date.le A dd ∧ Date.le dd C) ↔
      ((Date.le A dd ∧ Date.le dd B) ∨ (Date.le (nextDay B) dd ∧ Date.le dd C))) ∧
    ¬((Date.le A dd ∧ Date.le dd B) ∧ (Date.le (nextDay B) dd ∧ Date.le dd C)) := by
  have hgt := nextDay_gt B
  constructor
  · constructor
    · rintro ⟨h1, h2⟩
      rcases dateLe_total dd B with h | h
      · exact Or.inl ⟨h1, h⟩
      · exact Or.inr ⟨nextDay_min B dd hB hdd h, h2⟩
    · rintro (⟨h1, h2⟩ | ⟨h1, h2⟩)
      · exact ⟨h1, dateLe_of_lt dd C (dateLt_of_le_of_lt dd B C h2 hBC)⟩
      · refine ⟨dateLe_trans A B dd hAB (dateLe_of_lt B dd ?_), h2⟩
        exact dateLt_of_lt_of_le B (nextDay B) dd hgt h1
  · rintro ⟨⟨_, h2⟩, ⟨h3, _⟩⟩
    exact dateLt_asymm dd B h2 (dateLt_of_lt_of_le B (nextDay B) dd hgt h3)

theorem dateClause_split (A B C dd : Date) (hA : A.valid) (hB : B.valid) (hC : C.valid)
    (hdd : dd.valid) (hAB : Date.le A B) (hBC : Date.lt B C) :
    (dateClause (fmtDate A) (fmtDate C) (fmtDate dd)
      = (dateClause (fmtDate A) (fmtDate B) (fmtDate dd)
         || dateClause (fmtDate (nextDay B)) (fmtDate C) (fmtDate dd))) ∧
    ¬(dateClause (fmtDate A) (fmtDate B) (fmtDate dd) = true ∧
      dateClause (fmtDate (nextDay B)) (fmtDate C) (fmtDate dd) = true) := by
  have hnv := nextDay_valid B C hB hC hBC
  have e1 := fmtDate_le_iff A dd hA hdd
  have e2 := fmtDate_le_iff dd C hdd hC
  have e3 := fmtDate_le_iff dd B hdd hB
  have e4 := fmtDate_le_iff (nextDay B) dd hnv hdd
  obtain ⟨hiff, hdisj⟩ := date_partition A B C dd hB hC hdd hAB hBC
  constructor
  · rw [Bool.eq_iff_iff]
    simp only [dateClause, Bool.and_eq_true, Bool.or_eq_true]
    rw [e1, e2, e3, e4]
    exact hiff
  · rintro ⟨h1, h2⟩
    simp only [dateClause, Bool.and_eq_true] at h1 h2
    exact hdisj ⟨⟨e1.mp h1.1, e3.mp h1.2⟩, ⟨e4.mp h2.1, e2.mp h2.2⟩⟩

/-- C2: range-sum consistency.  Over any table whose stored dates are
well-formed `%Y-%m-%d` strings (the invariant the format preserves: the
byte order SQLite compares by coincides with the calendar order), and for
calendar days `A ≤ B < C`, the total over `[A, C]` is the total over
`[A, B]` plus the total over `[B+1, C]`, where `B+1` is the calendar day
after `B` — with or without a provider filter. -/
theorem total_cost_range_additive
    (s : State) (p : Option String) (A B C : Date)
    (hdates : ∀ r ∈ s, ∃ dd : Date, dd.valid ∧ r.date = fmtDate dd)
    (hA : A.valid) (hB : B.valid) (hC : C.valid)
    (hAB : Date.le A B) (hBC : Date.lt B C) :
    get_total_cost s (fmtDate A) (fmtDate C) p
      = get_total_cost s (fmtDate A) (fmtDate B) p
        + get_total_cost s (fmtDate (nextDay B)) (fmtDate C) p := by
  rw [get_total_cost_eq_sum, get_total_cost_eq_sum, get_total_cost_eq_sum]
  revert hdates
  induction s with
  | nil =>
      intro _
      simp
  | cons r rs ih =>
      intro hdates
      obtain ⟨dd, hdd, hdate⟩ := hdates r (List.mem_cons_self r rs)
      have ih2 := ih (fun r2 h2 => hdates r2 (List.mem_cons_of_mem _ h2))
      obtain ⟨hsplit, hdisj⟩ := dateClause_split A B C dd hA hB hC hdd hAB hBC
      simp only [List.filter_cons, rowMatches, hdate]
      by_cases hprov : providerClause p r.provider = true
      · by_cases h1 : dateClause (fmtDate A) (fmtDate B) (fmtDate dd) = true
        · have h2 : dateClause (fmtDate (nextDay B)) (fmtDate C) (fmtDate dd) = false := by
            by_cases h : dateClause (fmtDate (nextDay B)) (fmtDate C) (fmtDate dd) = true
            · exact absurd ⟨h1, h⟩ hdisj
            · rwa [Bool.not_eq_true] at h
          have h3 : dateClause (fmtDate A) (fmtDate C) (fmtDate dd) = true := by
            rw [hsplit, h1]
            rfl
          simp only [h1, h2, h3, hprov, Bool.true_and, Bool.false_and, Bool.and_true,
            eq_self_iff_true, Bool.false_eq_true, if_true, if_false, ite_true, ite_false,
            List.map_cons, List.sum_cons]
          rw [ih2]
          ring
        · have h1f : dateClause (fmtDate A) (fmtDate B) (fmtDate dd) = false := by
            rwa [Bool.not_eq_true] at h1
          by_cases h2 : dateClause (fmtDate (nextDay B)) (fmtDate C) (fmtDate dd) = true
          · have h3 : dateClause (fmtDate A) (fmtDate C) (fmtDate dd) = true := by
              rw [hsplit, h1f, h2]
              rfl
            simp only [h1f, h2, h3, hprov, Bool.true_and, Bool.false_and, Bool.and_true,
              eq_self_iff_true, Bool.false_eq_true, if_true, if_false, ite_true, ite_false,
              List.map_cons, List.sum_cons]
            rw [ih2]
            ring
          · have h2f : dateClause (fmtDate (nextDay B)) (fmtDate C) (fmtDate dd) = false := by
              rwa [Bool.not_eq_true] at h2
            have h3 : dateClause (fmtDate A) (fmtDate C) (fmtDate dd) = false := by
              rw [hsplit, h1f, h2f]
              rfl
            simp only [h1f, h2f, h3, hprov, Bool.true_and, Bool.false_and, Bool.and_true,
              eq_self_iff_true, Bool.false_eq_true, if_true, if_false, ite_true, ite_false]
            exact ih2
      · have hpf : providerClause p r.provider = false := by
          rwa [Bool.not_eq_true] at hprov
        simp only [hpf, Bool.and_false, Bool.false_eq_true, if_false, ite_false]
        exact ih2

/-- Witness for C2: a two-row table over 2024-06-01 ≤ 2024-06-02 < 2024-06-03. -/
theorem total_cost_range_additive_witness :
    get_total_cost
        [⟨fmtDate ⟨2024, 6, 2⟩, "openai", "h", "gpt-4", 1, 1, 0, 0, 5⟩,
         ⟨fmtDate ⟨2024, 6, 3⟩, "openai", "h", "gpt-4", 1, 1, 0, 0, 7⟩]
        (fmtDate ⟨2024, 6, 1⟩) (fmtDate ⟨2024, 6, 3⟩) none
      = get_total_cost
          [⟨fmtDate ⟨2024, 6, 2⟩, "openai", "h", "gpt-4", 1, 1, 0, 0, 5⟩,
           ⟨fmtDate ⟨2024, 6, 3⟩, "openai", "h", "gpt-4", 1, 1, 0, 0, 7⟩]
          (fmtDate ⟨2024, 6, 1⟩) (fmtDate ⟨2024, 6, 2⟩) none
        + get_total_cost
            [⟨fmtDate ⟨2024, 6, 2⟩, "openai", "h", "gpt-4", 1, 1, 0, 0, 5⟩,
             ⟨fmtDate ⟨2024, 6, 3⟩, "openai", "h", "gpt-4", 1, 1, 0, 0, 7⟩]
            (fmtDate (nextDay ⟨2024, 6, 2⟩)) (fmtDate ⟨2024, 6, 3⟩) none :=
  total_cost_range_additive
    [⟨fmtDate ⟨2024, 6, 2⟩, "openai", "h", "gpt-4", 1, 1, 0, 0, 5⟩,
     ⟨fmtDate ⟨2024, 6, 3⟩, "openai", "h", "gpt-4", 1, 1, 0, 0, 7⟩]
    none ⟨2024, 6, 1⟩ ⟨2024, 6, 2⟩ ⟨2024, 6, 3⟩
    (by
      intro r hr
      rcases List.mem_cons.mp hr with h | h
      · exact ⟨⟨2024, 6, 2⟩, by decide, by rw [h]⟩
      · exact ⟨⟨2024, 6, 3⟩, by decide, by rw [List.mem_singleton.mp h]⟩)
    (by decide) (by decide) (by decide) (by decide) (by decide)
